import Mathlib

/-
Verification of the drag-and-drop Action Tree builder (src/action.rs,
`Tree::from_list` / `Tree::from_iter`).

The builder consumes a flat list of `CodeAction` records (paired with their
original indices, as produced by `.iter().enumerate()`) and produces a forest
of `Action` nodes.  The external collaborators — the GML compiler
(`compile_expression` / `compile`, each returning either a value or an error
message) and the static builtin table `mappings::FUNCTIONS` — are opaque to
the builder, so they are modelled as the fields of a `BuildCtx`, parametrised
over the types of function pointers (phi), compiled expression nodes (nu) and
instructions (iota).

The shared `Peekable` iterator of the Rust code is modelled by passing the
list of still-unconsumed records into each call and returning the remainder.
The loop/recursion is driven by a fuel parameter; `from_iter` instantiates the
fuel with the length of the remaining input, which is proved sufficient
(`from_iter_fuel_isSome`) and stable (`from_iter_fuel_mono`).
-/

namespace GmAction

/- Action kind consts, matching `mod kind` in src/action.rs (GM8 values). -/
namespace kind

def NORMAL : Nat := 0

def BEGIN_GROUP : Nat := 1

def END_GROUP : Nat := 2

def ELSE : Nat := 3

def EXIT : Nat := 4

def REPEAT : Nat := 5

def VARIABLE : Nat := 6

def CODE : Nat := 7

end kind

/- Execution type consts, matching `mod execution_type` in src/action.rs. -/
namespace execution_type

def NONE : Nat := 0

def FUNCTION : Nat := 1

def CODE : Nat := 2

end execution_type

/-- The input record, mirroring the fields of `gm8exe::asset::etc::CodeAction`
that `Tree::from_iter` reads.  `action_kind` and `execution_type` are `u32`
in the source; only the small constant values above are ever compared, so
`Nat` is a faithful carrier.  `applies_to` is an `i32` target id. -/
structure CodeAction where
  action_kind : Nat
  execution_type : Nat
  is_condition : Bool
  invert_condition : Bool
  applies_to_something : Bool
  applies_to : Int
  is_relative : Bool
  fn_name : String
  fn_code : String
  param_strings : List String
  param_count : Nat
deriving DecidableEq, Repr

/-- The body of an action: `Body::Function(fn-pointer)` or
`Body::Code(Vec<Instruction>)`.  Function pointers and instructions are
opaque, hence the type parameters. -/
inductive Body (phi iota : Type) : Type where
  | Function (f : phi)
  | Code (c : List iota)
deriving DecidableEq, Repr

/-- One node of the output tree, mirroring `struct Action` in src/action.rs.
The `if_else` field makes the type recursive, so it is an inductive with a
single constructor rather than a structure. -/
inductive Action (phi nu iota : Type) : Type where
  | mk (index : Nat) (target : Option Int) (args : List nu) (relative : Bool)
      (invert_condition : Bool) (body : Body phi iota)
      (if_else : Option (List (Action phi nu iota) × List (Action phi nu iota)))

variable {phi nu iota : Type}

/-- The original index of this action in its list, starting at 0. -/
def Action.index : Action phi nu iota → Nat
  | .mk i _ _ _ _ _ _ => i

/-- The target ID, `None` when `applies_to_something` was false. -/
def Action.target : Action phi nu iota → Option Int
  | .mk _ t _ _ _ _ _ => t

/-- The compiled arguments of this action. -/
def Action.args : Action phi nu iota → List nu
  | .mk _ _ a _ _ _ _ => a

/-- Whether the "relative" checkbox was used. -/
def Action.relative : Action phi nu iota → Bool
  | .mk _ _ _ r _ _ _ => r

/-- Whether the bool result of a question action is inverted. -/
def Action.invert_condition : Action phi nu iota → Bool
  | .mk _ _ _ _ v _ _ => v

/-- The executable body of this action. -/
def Action.body : Action phi nu iota → Body phi iota
  | .mk _ _ _ _ _ b _ => b

/-- The 'if' and 'else' subtrees under this action, if it is a question. -/
def Action.if_else :
    Action phi nu iota → Option (List (Action phi nu iota) × List (Action phi nu iota))
  | .mk _ _ _ _ _ _ fe => fe

/-- The output of `Tree::from_list`: an ordered forest of actions. -/
structure Tree (phi nu iota : Type) where
  actions : List (Action phi nu iota)

/-- The external collaborators of the builder: the builtin table
`mappings::FUNCTIONS` (the third tuple component of the Rust table is never
read in src/action.rs, so entries are name/pointer pairs) and the two
compiler entry points, already composed with the `.map_err(|e| e.message)`
projection the builder applies. -/
structure BuildCtx (phi nu iota : Type) where
  functions : List (String × phi)
  compile_expression : String → Except String nu
  compile : String → Except String (List iota)

/-- Compilation of the first `param_count` raw parameter strings, mirroring
`action.param_strings.iter().take(action.param_count).map(compile_expression)
.collect::<Result<Vec<_>, _>>()`. -/
def compileArgs (ctx : BuildCtx phi nu iota) (a : CodeAction) : Except String (List nu) :=
  (a.param_strings.take a.param_count).mapM ctx.compile_expression

/-- The `match action.execution_type` dispatch of the loop body, producing
`none` for a dropped record (execution type NONE) and otherwise the compiled
arguments and body of the pushed node.  Mirrors lines 98-152 of
src/action.rs, including the order in which failures are produced (builtin
lookup before argument compilation; argument compilation before the
`fn_code` body compilation). -/
def compileBody (ctx : BuildCtx phi nu iota) (i : Nat) (a : CodeAction) :
    Except String (Option (List nu × Body phi iota)) :=
  if a.execution_type = execution_type.NONE then
    Except.ok none
  else if a.execution_type = execution_type.FUNCTION then
    match ctx.functions.find? (fun p => p.1 == a.fn_name) with
    | some (_, f) =>
        match compileArgs ctx a with
        | Except.ok args => Except.ok (some (args, Body.Function f))
        | Except.error e => Except.error e
    | none => Except.error ("Unknown function: " ++ a.fn_name ++ " in action " ++ toString i)
  else if a.action_kind = kind.CODE then
    match a.param_strings.head? with
    | some code =>
        match ctx.compile code with
        | Except.ok instrs => Except.ok (some ([], Body.Code instrs))
        | Except.error e => Except.error e
    | none => Except.ok (some ([], Body.Code []))
  else
    match compileArgs ctx a with
    | Except.ok args =>
        match ctx.compile a.fn_code with
        | Except.ok instrs => Except.ok (some (args, Body.Code instrs))
        | Except.error e => Except.error e
    | Except.error e => Except.error e

/-- The node pushed for one record (or `none` when the record is dropped),
with the `target`, `relative` and `invert_condition` fields copied exactly as
in each `output.push(Action { .. })` of src/action.rs. -/
def processRecord (ctx : BuildCtx phi nu iota) (i : Nat) (a : CodeAction)
    (fe : Option (List (Action phi nu iota) × List (Action phi nu iota))) :
    Except String (Option (Action phi nu iota)) :=
  match compileBody ctx i a with
  | Except.error e => Except.error e
  | Except.ok none => Except.ok none
  | Except.ok (some (args, body)) =>
      Except.ok (some (Action.mk i
        (if a.applies_to_something then some a.applies_to else none)
        args a.is_relative a.invert_condition body fe))

/-- The node a plain (non-condition) record contributes, when it contributes
one. -/
def recordNode (ctx : BuildCtx phi nu iota) (i : Nat) (a : CodeAction) :
    Option (Action phi nu iota) :=
  match processRecord ctx i a none with
  | Except.ok (some n) => some n
  | _ => none

/-- The `stop_immediately` flag computed from the initial peek of a call to
`from_iter`: false when the first unconsumed record is a `BEGIN_GROUP`,
otherwise equal to `single_group`. -/
def stop_immediately (single_group : Bool) : List (Nat × CodeAction) → Bool
  | (_, a) :: _ => if a.action_kind = kind.BEGIN_GROUP then false else single_group
  | [] => single_group

/-- The peek deciding whether an else body is parsed: whether the next
unconsumed record has kind `ELSE`. -/
def is_else_peek : List (Nat × CodeAction) → Bool
  | (_, a) :: _ => a.action_kind = kind.ELSE
  | [] => false

/-- The tail of one iteration of the `while let` loop: process the current
record, then either break (returning the unconsumed remainder) or splice the
result of the continuation `cont` (the rest of the loop), which was run on
the records remaining after the if/else bodies were consumed. -/
def loop_step (ctx : BuildCtx phi nu iota) (sg si : Bool) (i : Nat) (a : CodeAction)
    (fe : Option (List (Action phi nu iota) × List (Action phi nu iota)))
    (rest1 : List (Nat × CodeAction))
    (cont : Option (Except String (List (Action phi nu iota) × List (Nat × CodeAction)))) :
    Option (Except String (List (Action phi nu iota) × List (Nat × CodeAction))) :=
  match processRecord ctx i a fe with
  | Except.error e => some (Except.error e)
  | Except.ok node? =>
      if (sg && a.action_kind = kind.END_GROUP) || si then
        some (Except.ok (node?.toList, rest1))
      else
        match cont with
        | none => none
        | some (Except.error e) => some (Except.error e)
        | some (Except.ok (out, r)) => some (Except.ok (node?.toList ++ out, r))

/-- The `while let Some((i, action)) = iter.next()` loop of
`Tree::from_iter`, with `si` the `stop_immediately` flag fixed before the
loop.  Every iteration consumes the head record; a condition record first
consumes its "then" body (a recursive single-group parse) and, when the next
unconsumed record has kind `ELSE`, an "else" body, before the record itself
is dispatched.  `fuel` bounds the number of records consumed; `none` is the
(never reached, see `from_iter_fuel_isSome`) out-of-fuel result. -/
def from_iter_fuel (ctx : BuildCtx phi nu iota) :
    Nat → Bool → Bool → List (Nat × CodeAction) →
    Option (Except String (List (Action phi nu iota) × List (Nat × CodeAction)))
  | _, _, _, [] => some (Except.ok ([], []))
  | 0, _, _, _ :: _ => none
  | fuel + 1, sg, si, (i, a) :: rest =>
      if a.is_condition then
        match from_iter_fuel ctx fuel true (stop_immediately true rest) rest with
        | none => none
        | some (Except.error e) => some (Except.error e)
        | some (Except.ok (if_body, r1)) =>
            if is_else_peek r1 then
              match from_iter_fuel ctx fuel true (stop_immediately true r1) r1 with
              | none => none
              | some (Except.error e) => some (Except.error e)
              | some (Except.ok (else_body, r2)) =>
                  loop_step ctx sg si i a (some (if_body, else_body)) r2
                    (from_iter_fuel ctx fuel sg si r2)
            else
              loop_step ctx sg si i a (some (if_body, [])) r1
                (from_iter_fuel ctx fuel sg si r1)
      else
        loop_step ctx sg si i a none rest (from_iter_fuel ctx fuel sg si rest)

/-- `Tree::from_iter`: parse with the `stop_immediately` flag computed from
the initial peek, the fuel instantiated with the number of unconsumed
records (shown sufficient by `from_iter_fuel_isSome`). -/
def from_iter (ctx : BuildCtx phi nu iota) (l : List (Nat × CodeAction)) (single_group : Bool) :
    Option (Except String (List (Action phi nu iota) × List (Nat × CodeAction))) :=
  from_iter_fuel ctx l.length single_group (stop_immediately single_group l) l

/-- `Tree::from_list`: enumerate the records and run the top-level
(non-single-group) parse. -/
def from_list (ctx : BuildCtx phi nu iota) (list : List CodeAction) :
    Option (Except String (Tree phi nu iota)) :=
  (from_iter ctx list.enum false).map (fun r => r.map (fun pr => Tree.mk pr.1))

/-- Flatten a forest back to source order: each node followed by its then-
and else-subtrees (which were built from the records following it), then its
later siblings. -/
def flattenForest : List (Action phi nu iota) → List (Action phi nu iota)
  | [] => []
  | Action.mk i t ar r ic b fe :: rest =>
      Action.mk i t ar r ic b fe ::
        ((match fe with
          | none => []
          | some (tb, eb) => flattenForest tb ++ flattenForest eb) ++ flattenForest rest)
termination_by l => sizeOf l
decreasing_by
  all_goals simp_wf
  all_goals omega

/-- Whether a record's dispatch succeeds and pushes a node (checked at index
0; `compile_body_ok_irrel` shows success does not depend on the index). -/
def emitsNode (ctx : BuildCtx phi nu iota) (a : CodeAction) : Bool :=
  match compileBody ctx 0 a with
  | Except.ok (some _) => true
  | _ => false

/-- A well-formed non-structural record: not a condition, not one of the
three structural marker kinds, and its dispatch pushes exactly one node. -/
def plainRecord (ctx : BuildCtx phi nu iota) (a : CodeAction) : Bool :=
  !a.is_condition && !(a.action_kind = kind.BEGIN_GROUP : Bool)
    && !(a.action_kind = kind.END_GROUP : Bool) && !(a.action_kind = kind.ELSE : Bool)
    && emitsNode ctx a

/-- A small concrete context used to evaluate the builder on closed inputs:
two known builtins, an expression compiler that rejects exactly the string
"BAD" and otherwise returns the length of its input, and a statement
compiler that rejects exactly "BADCODE". -/
def testCtx : BuildCtx Nat Nat Nat where
  functions := [("move", 7), ("jump", 8)]
  compile_expression := fun s => if s = "BAD" then Except.error "bad expr" else Except.ok s.length
  compile := fun s => if s = "BADCODE" then Except.error "bad code" else Except.ok [s.length]

/-- A record template all concrete test records are derived from. -/
def baseRec : CodeAction where
  action_kind := kind.NORMAL
  execution_type := execution_type.NONE
  is_condition := false
  invert_condition := false
  applies_to_something := false
  applies_to := -1
  is_relative := false
  fn_name := ""
  fn_code := ""
  param_strings := []
  param_count := 0

/-- A plain builtin call: FUNCTION execution, name "move", one parameter. -/
def moveRec : CodeAction :=
  { baseRec with execution_type := execution_type.FUNCTION, fn_name := "move",
                 param_strings := ["x"], param_count := 1 }

/-- A `BEGIN_GROUP` marker (execution type NONE, as produced by GM8). -/
def beginRec : CodeAction := { baseRec with action_kind := kind.BEGIN_GROUP }

/-- An `END_GROUP` marker (execution type NONE). -/
def endRec : CodeAction := { baseRec with action_kind := kind.END_GROUP }

/-- An `ELSE` marker (execution type NONE). -/
def elseRec : CodeAction := { baseRec with action_kind := kind.ELSE }

/-- A condition record executing the builtin "move". -/
def condRec : CodeAction := { moveRec with is_condition := true }

/-- A condition record with execution type NONE (a disabled question). -/
def condNoneRec : CodeAction := { baseRec with is_condition := true }

/-- A builtin call naming an operation absent from the table. -/
def badFnRec : CodeAction :=
  { baseRec with execution_type := execution_type.FUNCTION, fn_name := "nope" }

/-- An inline-code record (kind CODE, execution type CODE): param 0 holds
the source text. -/
def inlineRec : CodeAction :=
  { baseRec with action_kind := kind.CODE, execution_type := execution_type.CODE,
                 param_strings := ["x"], param_count := 1 }

/-- A list containing a plain builtin call, a disabled (execution type
NONE) record, and a condition governing one following record. -/
def sampleList : List CodeAction := [moveRec, baseRec, condRec, moveRec]

/-- The forest `from_list` builds from `sampleList`. -/
def sampleTree : Tree Nat Nat Nat :=
  match from_list testCtx sampleList with
  | some (Except.ok t) => t
  | _ => Tree.mk []

-- THEOREMS

/-- The ok-results of the record dispatch do not depend on the record's
index: the index is only used in the unknown-function error message. -/
theorem compile_body_ok_irrel (ctx : BuildCtx phi nu iota) (i j : Nat) (a : CodeAction)
    (v : Option (List nu × Body phi iota)) (h : compileBody ctx i a = Except.ok v) :
    compileBody ctx j a = Except.ok v := by
  unfold compileBody at h ⊢
  split_ifs at h ⊢
  · exact h
  · cases hfind : ctx.functions.find? (fun p => p.1 == a.fn_name) with
    | some p => simp only [hfind] at h ⊢; exact h
    | none => rw [hfind] at h; simp at h
  · exact h
  · exact h

/-- A record with execution type NONE is dropped by the dispatch. -/
theorem compileBody_none (ctx : BuildCtx phi nu iota) (i : Nat) (a : CodeAction)
    (h : a.execution_type = execution_type.NONE) : compileBody ctx i a = Except.ok none := by
  unfold compileBody
  simp [h]

/-- A record that produces a node does not have execution type NONE. -/
theorem exec_ne_none_of_emits (ctx : BuildCtx phi nu iota) (i : Nat) (a : CodeAction)
    (x : List nu × Body phi iota) (h : compileBody ctx i a = Except.ok (some x)) :
    a.execution_type ≠ execution_type.NONE := by
  intro he
  rw [compileBody_none ctx i a he] at h
  simp at h

/-- A record that `emitsNode` accepts dispatches successfully at every
index. -/
theorem emits_ok (ctx : BuildCtx phi nu iota) (a : CodeAction) (h : emitsNode ctx a = true) :
    ∃ ab, ∀ i, compileBody ctx i a = Except.ok (some ab) := by
  unfold emitsNode at h
  split at h
  · rename_i x heq
    exact ⟨x, fun i => compile_body_ok_irrel ctx 0 i a (some x) heq⟩
  · simp at h

/-- Unpacking of `plainRecord`. -/
theorem plainRecord_spec (ctx : BuildCtx phi nu iota) (a : CodeAction)
    (h : plainRecord ctx a = true) :
    a.is_condition = false ∧ a.action_kind ≠ kind.BEGIN_GROUP ∧
      a.action_kind ≠ kind.END_GROUP ∧ a.action_kind ≠ kind.ELSE ∧
      ∃ ab, ∀ i, compileBody ctx i a = Except.ok (some ab) := by
  unfold plainRecord emitsNode at h
  simp only [Bool.and_eq_true, Bool.not_eq_true', decide_eq_false_iff_not] at h
  obtain ⟨⟨⟨⟨h1, h2⟩, h3⟩, h4⟩, h5⟩ := h
  exact ⟨h1, h2, h3, h4, emits_ok ctx a h5⟩

/-- For a plain record, `processRecord` pushes exactly the node
`recordNode` describes: indexed by `i`, with no branches. -/
theorem recordNode_of_plain (ctx : BuildCtx phi nu iota) (a : CodeAction) (i : Nat)
    (h : plainRecord ctx a = true) :
    ∃ n, recordNode ctx i a = some n ∧ processRecord ctx i a none = Except.ok (some n) ∧
      n.index = i ∧ n.if_else = none := by
  obtain ⟨-, -, -, -, ab, hab⟩ := plainRecord_spec ctx a h
  refine ⟨Action.mk i (if a.applies_to_something then some a.applies_to else none)
    ab.1 a.is_relative a.invert_condition ab.2 none, ?_, ?_, rfl, rfl⟩
  · unfold recordNode processRecord
    rw [hab i]
  · unfold processRecord
    rw [hab i]

/-- At top level (`single_group = false`) the `stop_immediately` flag is
always false. -/
theorem stop_immediately_false (l : List (Nat × CodeAction)) :
    stop_immediately false l = false := by
  cases l with
  | nil => rfl
  | cons hd tl =>
    obtain ⟨i, a⟩ := hd
    simp [stop_immediately]

/-- Possible shapes of a successful `loop_step`: either the loop broke and
the remainder is the records left after the current record's branches, or
the continuation ran and produced the remainder. -/
theorem loop_step_ok (ctx : BuildCtx phi nu iota) (sg si : Bool) (i : Nat) (a : CodeAction)
    (fe : Option (List (Action phi nu iota) × List (Action phi nu iota)))
    (rest1 : List (Nat × CodeAction))
    (cont : Option (Except String (List (Action phi nu iota) × List (Nat × CodeAction))))
    (out : List (Action phi nu iota)) (rem : List (Nat × CodeAction))
    (h : loop_step ctx sg si i a fe rest1 cont = some (Except.ok (out, rem))) :
    rem = rest1 ∨ ∃ out2, cont = some (Except.ok (out2, rem)) := by
  unfold loop_step at h
  split at h
  · simp at h
  · split at h
    · simp only [Option.some.injEq, Except.ok.injEq, Prod.mk.injEq] at h
      exact Or.inl h.2.symm
    · rcases cont with _ | ce
      · simp at h
      · rcases ce with e | ⟨out2, r⟩
        · simp at h
        · simp only [Option.some.injEq, Except.ok.injEq, Prod.mk.injEq] at h
          exact Or.inr ⟨out2, by rw [h.2]⟩

/-- The records left unconsumed by a parse are a suffix of the records it
was given. -/
theorem from_iter_fuel_suffix (ctx : BuildCtx phi nu iota) :
    ∀ (fuel : Nat) (sg si : Bool) (l : List (Nat × CodeAction))
      (out : List (Action phi nu iota)) (rem : List (Nat × CodeAction)),
      from_iter_fuel ctx fuel sg si l = some (Except.ok (out, rem)) → rem <:+ l := by
  intro fuel
  induction fuel with
  | zero =>
    intro sg si l out rem h
    cases l with
    | nil =>
      simp only [from_iter_fuel, Option.some.injEq, Except.ok.injEq, Prod.mk.injEq] at h
      obtain ⟨h1, h2⟩ := h
      subst h2
      exact List.nil_suffix
    | cons hd tl => simp [from_iter_fuel] at h
  | succ n ih =>
    intro sg si l out rem h
    cases l with
    | nil =>
      simp only [from_iter_fuel, Option.some.injEq, Except.ok.injEq, Prod.mk.injEq] at h
      obtain ⟨h1, h2⟩ := h
      subst h2
      exact List.nil_suffix
    | cons hd tl =>
      obtain ⟨i, a⟩ := hd
      simp only [from_iter_fuel] at h
      split at h
      · split at h
        · simp at h
        · simp at h
        · rename_i if_body r1 hsub
          have hr1 : r1 <:+ tl := ih true (stop_immediately true tl) tl if_body r1 hsub
          split at h
          · split at h
            · simp at h
            · simp at h
            · rename_i else_body r2 hsub2
              have hr2 : r2 <:+ r1 := ih true (stop_immediately true r1) r1 else_body r2 hsub2
              rcases loop_step_ok _ _ _ _ _ _ _ _ _ _ h with hrem | ⟨out2, hcont⟩
              · exact (hrem ▸ (hr2.trans hr1)).trans (List.suffix_cons _ _)
              · exact ((ih sg si r2 out2 rem hcont).trans (hr2.trans hr1)).trans
                  (List.suffix_cons _ _)
          · rcases loop_step_ok _ _ _ _ _ _ _ _ _ _ h with hrem | ⟨out2, hcont⟩
            · exact (hrem ▸ hr1).trans (List.suffix_cons _ _)
            · exact ((ih sg si r1 out2 rem hcont).trans hr1).trans (List.suffix_cons _ _)
      · rcases loop_step_ok _ _ _ _ _ _ _ _ _ _ h with hrem | ⟨out2, hcont⟩
        · exact hrem ▸ List.suffix_cons _ _
        · exact (ih sg si tl out2 rem hcont).trans (List.suffix_cons _ _)

/-- `loop_step` yields a result whenever its continuation does. -/
theorem loop_step_isSome (ctx : BuildCtx phi nu iota) (sg si : Bool) (i : Nat) (a : CodeAction)
    (fe : Option (List (Action phi nu iota) × List (Action phi nu iota)))
    (rest1 : List (Nat × CodeAction))
    (cont : Option (Except String (List (Action phi nu iota) × List (Nat × CodeAction))))
    (hcont : cont.isSome) : (loop_step ctx sg si i a fe rest1 cont).isSome := by
  unfold loop_step
  split
  · simp
  · split
    · simp
    · rcases cont with _ | ce
      · simp at hcont
      · rcases ce with e | ⟨out2, r⟩ <;> simp

/-- Fuel equal to the number of unconsumed records is enough: the parse
always yields a result, because every loop iteration and every recursive
single-group parse consumes at least one record first. -/
theorem from_iter_fuel_isSome (ctx : BuildCtx phi nu iota) :
    ∀ (fuel : Nat) (sg si : Bool) (l : List (Nat × CodeAction)), l.length ≤ fuel →
      (from_iter_fuel ctx fuel sg si l).isSome := by
  intro fuel
  induction fuel with
  | zero =>
    intro sg si l hl
    rw [List.length_eq_zero.mp (Nat.le_zero.mp hl)]
    simp [from_iter_fuel]
  | succ n ih =>
    intro sg si l hl
    cases l with
    | nil => simp [from_iter_fuel]
    | cons hd tl =>
      obtain ⟨i, a⟩ := hd
      have htl : tl.length ≤ n := Nat.le_of_succ_le_succ hl
      simp only [from_iter_fuel]
      split
      · cases hs : from_iter_fuel ctx n true (stop_immediately true tl) tl with
        | none => exact absurd (ih true (stop_immediately true tl) tl htl) (by simp [hs])
        | some v =>
          rcases v with e | ⟨if_body, r1⟩
          · simp
          · have hr1 : r1.length ≤ n :=
              ((from_iter_fuel_suffix ctx n true (stop_immediately true tl) tl
                if_body r1 hs).length_le).trans htl
            simp only
            split
            · cases hs2 : from_iter_fuel ctx n true (stop_immediately true r1) r1 with
              | none =>
                exact absurd (ih true (stop_immediately true r1) r1 hr1) (by simp [hs2])
              | some v2 =>
                rcases v2 with e | ⟨else_body, r2⟩
                · simp
                · have hr2 : r2.length ≤ n :=
                    ((from_iter_fuel_suffix ctx n true (stop_immediately true r1) r1
                      else_body r2 hs2).length_le).trans hr1
                  exact loop_step_isSome _ _ _ _ _ _ _ _ (ih sg si r2 hr2)
            · exact loop_step_isSome _ _ _ _ _ _ _ _ (ih sg si r1 hr1)
      · exact loop_step_isSome _ _ _ _ _ _ _ _ (ih sg si tl htl)

/-- Above the length of the input, the result does not depend on the fuel:
the parse of a list of length at most `fuel` computes the same value at any
larger fuel, so `from_iter`'s choice of fuel is canonical. -/
theorem from_iter_fuel_mono (ctx : BuildCtx phi nu iota) :
    ∀ (fuel fuel2 : Nat) (sg si : Bool) (l : List (Nat × CodeAction)), l.length ≤ fuel →
      fuel ≤ fuel2 → from_iter_fuel ctx fuel2 sg si l = from_iter_fuel ctx fuel sg si l := by
  intro fuel
  induction fuel with
  | zero =>
    intro fuel2 sg si l hl _
    rw [List.length_eq_zero.mp (Nat.le_zero.mp hl)]
    cases fuel2 <;> rfl
  | succ n ih =>
    intro fuel2 sg si l hl hf
    cases l with
    | nil => cases fuel2 <;> rfl
    | cons hd tl =>
      obtain ⟨m, rfl⟩ : ∃ m, fuel2 = m + 1 := ⟨fuel2 - 1, by omega⟩
      obtain ⟨i, a⟩ := hd
      have htl : tl.length ≤ n := Nat.le_of_succ_le_succ hl
      have hnm : n ≤ m := Nat.le_of_succ_le_succ hf
      simp only [from_iter_fuel]
      rw [ih m true (stop_immediately true tl) tl htl hnm]
      split
      · cases hs : from_iter_fuel ctx n true (stop_immediately true tl) tl with
        | none => rfl
        | some v =>
          rcases v with e | ⟨if_body, r1⟩
          · rfl
          · have hr1 : r1.length ≤ n :=
              ((from_iter_fuel_suffix ctx n true (stop_immediately true tl) tl
                if_body r1 hs).length_le).trans htl
            simp only
            rw [ih m true (stop_immediately true r1) r1 hr1 hnm]
            split
            · cases hs2 : from_iter_fuel ctx n true (stop_immediately true r1) r1 with
              | none => rfl
              | some v2 =>
                rcases v2 with e | ⟨else_body, r2⟩
                · rfl
                · have hr2 : r2.length ≤ n :=
                    ((from_iter_fuel_suffix ctx n true (stop_immediately true r1) r1
                      else_body r2 hs2).length_le).trans hr1
                  dsimp only
                  rw [ih m sg si r2 hr2 hnm]
            · rw [ih m sg si r1 hr1 hnm]
      · rw [ih m sg si tl htl hnm]

/-- Flattening distributes over appending of forests. -/
theorem flattenForest_append (xs ys : List (Action phi nu iota)) :
    flattenForest (xs ++ ys) = flattenForest xs ++ flattenForest ys := by
  induction xs with
  | nil => simp [flattenForest]
  | cons hd tl ihx =>
    obtain ⟨i, t, ar, r, ic, b, fe⟩ := hd
    rcases fe with _ | ⟨tb, eb⟩ <;>
      simp only [List.cons_append, flattenForest, ihx, List.append_assoc]

/-- Inversion of a successful `processRecord`: the pushed node carries the
record's index and the parsed branches, and the record was not dropped. -/
theorem processRecord_ok_some (ctx : BuildCtx phi nu iota) (i : Nat) (a : CodeAction)
    (fe : Option (List (Action phi nu iota) × List (Action phi nu iota)))
    (n : Action phi nu iota) (h : processRecord ctx i a fe = Except.ok (some n)) :
    n.index = i ∧ n.if_else = fe ∧ a.execution_type ≠ execution_type.NONE := by
  unfold processRecord at h
  split at h
  · simp at h
  · simp at h
  · rename_i args body heq
    simp only [Except.ok.injEq, Option.some.injEq] at h
    subst h
    exact ⟨rfl, rfl, exec_ne_none_of_emits ctx i a _ heq⟩

/-- Full inversion of a successful `loop_step`: the output is the node of
the current record (if any), possibly followed by the continuation's
output. -/
theorem loop_step_out (ctx : BuildCtx phi nu iota) (sg si : Bool) (i : Nat) (a : CodeAction)
    (fe : Option (List (Action phi nu iota) × List (Action phi nu iota)))
    (rest1 : List (Nat × CodeAction))
    (cont : Option (Except String (List (Action phi nu iota) × List (Nat × CodeAction))))
    (out : List (Action phi nu iota)) (rem : List (Nat × CodeAction))
    (h : loop_step ctx sg si i a fe rest1 cont = some (Except.ok (out, rem))) :
    ∃ node?, processRecord ctx i a fe = Except.ok node? ∧
      (out = node?.toList ∨
        ∃ out2, cont = some (Except.ok (out2, rem)) ∧ out = node?.toList ++ out2) := by
  unfold loop_step at h
  split at h
  · simp at h
  · rename_i node? heq
    refine ⟨node?, heq, ?_⟩
    split at h
    · simp only [Option.some.injEq, Except.ok.injEq, Prod.mk.injEq] at h
      exact Or.inl h.1.symm
    · rcases cont with _ | ce
      · simp at h
      · rcases ce with e | ⟨out2, r⟩
        · simp at h
        · simp only [Option.some.injEq, Except.ok.injEq, Prod.mk.injEq] at h
          exact Or.inr ⟨out2, by rw [h.2], h.1.symm⟩

/-- Every node anywhere in the produced forest (in source-order flattening)
comes from one of the given records, one that was not dropped (execution
type is not NONE), and it carries branches exactly when that record was a
condition. -/
theorem from_iter_fuel_members (ctx : BuildCtx phi nu iota) :
    ∀ (fuel : Nat) (sg si : Bool) (l : List (Nat × CodeAction))
      (out : List (Action phi nu iota)) (rem : List (Nat × CodeAction)),
      from_iter_fuel ctx fuel sg si l = some (Except.ok (out, rem)) →
      ∀ node ∈ flattenForest out, ∃ a, (node.index, a) ∈ l ∧
        a.execution_type ≠ execution_type.NONE ∧ node.if_else.isSome = a.is_condition := by
  intro fuel
  induction fuel with
  | zero =>
    intro sg si l out rem h
    cases l with
    | nil =>
      simp only [from_iter_fuel, Option.some.injEq, Except.ok.injEq, Prod.mk.injEq] at h
      rw [← h.1]
      simp [flattenForest]
    | cons hd tl => simp [from_iter_fuel] at h
  | succ n ih =>
    intro sg si l out rem h
    cases l with
    | nil =>
      simp only [from_iter_fuel, Option.some.injEq, Except.ok.injEq, Prod.mk.injEq] at h
      rw [← h.1]
      simp [flattenForest]
    | cons hd tl =>
      obtain ⟨i, a⟩ := hd
      simp only [from_iter_fuel] at h
      split at h
      · rename_i hcond
        split at h
        · simp at h
        · simp at h
        · rename_i if_body r1 hsub
          have hr1 : r1 <:+ tl :=
            from_iter_fuel_suffix ctx n true (stop_immediately true tl) tl if_body r1 hsub
          have Hif := ih true (stop_immediately true tl) tl if_body r1 hsub
          split at h
          · split at h
            · simp at h
            · simp at h
            · rename_i else_body r2 hsub2
              have hr2 : r2 <:+ r1 :=
                from_iter_fuel_suffix ctx n true (stop_immediately true r1) r1 else_body r2 hsub2
              have Helse := ih true (stop_immediately true r1) r1 else_body r2 hsub2
              obtain ⟨node?, hproc, hout⟩ := loop_step_out _ _ _ _ _ _ _ _ _ _ h
              intro node hnode
              have hhead : node ∈ flattenForest node?.toList →
                  ∃ a2, (node.index, a2) ∈ (i, a) :: tl ∧
                    a2.execution_type ≠ execution_type.NONE ∧
                    node.if_else.isSome = a2.is_condition := by
                intro hmem
                rcases node? with _ | nd
                · simp [flattenForest] at hmem
                · obtain ⟨hidx, hfe, hexec⟩ := processRecord_ok_some _ _ _ _ _ hproc
                  obtain ⟨i2, t2, ar2, r2x, ic2, b2, fe2⟩ := nd
                  simp only [Action.if_else] at hfe
                  subst hfe
                  simp only [Action.index] at hidx
                  subst hidx
                  simp [Option.toList, flattenForest, flattenForest_append] at hmem
                  rcases hmem with rfl | hmem2 | hmem3
                  · exact ⟨a, by simp [Action.index], hexec, by simp [Action.if_else, hcond]⟩
                  · obtain ⟨a2, hmem, hrest⟩ := Hif node hmem2
                    exact ⟨a2, List.mem_cons_of_mem _ hmem, hrest⟩
                  · obtain ⟨a2, hmem, hrest⟩ := Helse node hmem3
                    exact ⟨a2, List.mem_cons_of_mem _ (hr1.subset hmem), hrest⟩
              rcases hout with rfl | ⟨out2, hcont, rfl⟩
              · exact hhead hnode
              · rw [flattenForest_append] at hnode
                rcases List.mem_append.mp hnode with hmem | hmem
                · exact hhead hmem
                · obtain ⟨a2, hmem2, hrest⟩ := ih sg si r2 out2 rem hcont node hmem
                  exact ⟨a2, List.mem_cons_of_mem _ ((hr2.trans hr1).subset hmem2), hrest⟩
          · obtain ⟨node?, hproc, hout⟩ := loop_step_out _ _ _ _ _ _ _ _ _ _ h
            intro node hnode
            have hhead : node ∈ flattenForest node?.toList →
                ∃ a2, (node.index, a2) ∈ (i, a) :: tl ∧
                  a2.execution_type ≠ execution_type.NONE ∧
                  node.if_else.isSome = a2.is_condition := by
              intro hmem
              rcases node? with _ | nd
              · simp [flattenForest] at hmem
              · obtain ⟨hidx, hfe, hexec⟩ := processRecord_ok_some _ _ _ _ _ hproc
                obtain ⟨i2, t2, ar2, r2x, ic2, b2, fe2⟩ := nd
                simp only [Action.if_else] at hfe
                subst hfe
                simp only [Action.index] at hidx
                subst hidx
                simp [Option.toList, flattenForest, flattenForest_append] at hmem
                rcases hmem with rfl | hmem2
                · exact ⟨a, by simp [Action.index], hexec, by simp [Action.if_else, hcond]⟩
                · obtain ⟨a2, hmem, hrest⟩ := Hif node hmem2
                  exact ⟨a2, List.mem_cons_of_mem _ hmem, hrest⟩
            rcases hout with rfl | ⟨out2, hcont, rfl⟩
            · exact hhead hnode
            · rw [flattenForest_append] at hnode
              rcases List.mem_append.mp hnode with hmem | hmem
              · exact hhead hmem
              · obtain ⟨a2, hmem2, hrest⟩ := ih sg si r1 out2 rem hcont node hmem
                exact ⟨a2, List.mem_cons_of_mem _ (hr1.subset hmem2), hrest⟩
      · rename_i hcond
        obtain ⟨node?, hproc, hout⟩ := loop_step_out _ _ _ _ _ _ _ _ _ _ h
        intro node hnode
        have hhead : node ∈ flattenForest node?.toList →
            ∃ a2, (node.index, a2) ∈ (i, a) :: tl ∧
              a2.execution_type ≠ execution_type.NONE ∧
              node.if_else.isSome = a2.is_condition := by
          intro hmem
          rcases node? with _ | nd
          · simp [flattenForest] at hmem
          · obtain ⟨hidx, hfe, hexec⟩ := processRecord_ok_some _ _ _ _ _ hproc
            obtain ⟨i2, t2, ar2, r2x, ic2, b2, fe2⟩ := nd
            simp only [Action.if_else] at hfe
            subst hfe
            simp only [Action.index] at hidx
            subst hidx
            simp [Option.toList, flattenForest] at hmem
            subst hmem
            exact ⟨a, by simp [Action.index], hexec, by simp [Action.if_else, hcond]⟩
        rcases hout with rfl | ⟨out2, hcont, rfl⟩
        · exact hhead hnode
        · rw [flattenForest_append] at hnode
          rcases List.mem_append.mp hnode with hmem | hmem
          · exact hhead hmem
          · obtain ⟨a2, hmem2, hrest⟩ := ih sg si tl out2 rem hcont node hmem
            exact ⟨a2, List.mem_cons_of_mem _ hmem2, hrest⟩

/-- A record with execution type NONE contributes no node and no error. -/
theorem processRecord_none (ctx : BuildCtx phi nu iota) (i : Nat) (a : CodeAction)
    (fe : Option (List (Action phi nu iota) × List (Action phi nu iota)))
    (hx : a.execution_type = execution_type.NONE) :
    processRecord ctx i a fe = Except.ok none := by
  unfold processRecord
  rw [compileBody_none ctx i a hx]

/-- A list of plain records contributes exactly one node per record. -/
theorem plain_filterMap_length (ctx : BuildCtx phi nu iota) :
    ∀ (ps : List (Nat × CodeAction)), (∀ p ∈ ps, plainRecord ctx p.2 = true) →
      (ps.filterMap (fun p => recordNode ctx p.1 p.2)).length = ps.length := by
  intro ps
  induction ps with
  | nil => intro _; rfl
  | cons p ps ihp =>
    intro hplain
    obtain ⟨i, a⟩ := p
    obtain ⟨nd, hrn, -, -, -⟩ := recordNode_of_plain ctx a i (hplain (i, a) (by simp))
    simp only [List.filterMap_cons, hrn, List.length_cons]
    rw [ihp (fun q hq => hplain q (List.mem_cons_of_mem _ hq))]

/-- Nodes of plain records carry no branches. -/
theorem plain_nodes_if_else (ctx : BuildCtx phi nu iota) :
    ∀ (ps : List (Nat × CodeAction)), (∀ p ∈ ps, plainRecord ctx p.2 = true) →
      ∀ nd ∈ ps.filterMap (fun p => recordNode ctx p.1 p.2), nd.if_else = none := by
  intro ps
  induction ps with
  | nil => intro _ nd h; simp at h
  | cons p ps ihp =>
    intro hplain nd hnd
    obtain ⟨i, a⟩ := p
    obtain ⟨nd2, hrn, -, -, hfe⟩ := recordNode_of_plain ctx a i (hplain (i, a) (by simp))
    simp only [List.filterMap_cons, hrn, List.mem_cons] at hnd
    rcases hnd with rfl | hnd
    · exact hfe
    · exact ihp (fun q hq => hplain q (List.mem_cons_of_mem _ hq)) nd hnd

/-- A forest of branch-free nodes flattens to itself. -/
theorem flatten_no_branches :
    ∀ (ns : List (Action phi nu iota)), (∀ n ∈ ns, n.if_else = none) →
      flattenForest ns = ns := by
  intro ns
  induction ns with
  | nil => intro _; simp [flattenForest]
  | cons hd tl iht =>
    intro hn
    obtain ⟨i, t, ar, r, ic, b, fe⟩ := hd
    have hfe : fe = none := hn (Action.mk i t ar r ic b fe) (by simp)
    subst hfe
    simp only [flattenForest, List.nil_append]
    rw [iht (fun q hq => hn q (List.mem_cons_of_mem _ hq))]

/-- Looking each plain node's source index back up in the original list
recovers exactly the records the nodes were built from, in order. -/
theorem plain_nodes_lookup (ctx : BuildCtx phi nu iota) :
    ∀ (mid : List CodeAction) (k : Nat) (L : List CodeAction),
      (∀ a ∈ mid, plainRecord ctx a = true) →
      (∀ jj, jj < mid.length → L[k + jj]? = mid[jj]?) →
      ((mid.enumFrom k).filterMap (fun p => recordNode ctx p.1 p.2)).map
          (fun nd => L[nd.index]?) = mid.map some := by
  intro mid
  induction mid with
  | nil => intro k L _ _; rfl
  | cons a mid ihm =>
    intro k L hplain hL
    obtain ⟨nd, hrn, -, hidx, -⟩ := recordNode_of_plain ctx a k (hplain a (by simp))
    have h0 : L[k]? = some a := by
      have := hL 0 (by simp)
      simpa using this
    simp only [List.enumFrom_cons, List.filterMap_cons, hrn, List.map_cons, hidx, h0]
    rw [ihm (k + 1) L (fun q hq => hplain q (List.mem_cons_of_mem _ hq))]
    intro jj hjj
    have := hL (jj + 1) (by simpa using Nat.succ_lt_succ hjj)
    rw [show k + 1 + jj = k + (jj + 1) by omega]
    simpa using this

/-- A single-group parse of plain records closed by an `END_GROUP` marker:
the loop emits one node per plain record, then consumes the marker (which
emits nothing) and stops, leaving exactly the records after the marker. -/
theorem group_loop (ctx : BuildCtx phi nu iota) :
    ∀ (mid : List (Nat × CodeAction)) (j : Nat) (e : CodeAction)
      (rest : List (Nat × CodeAction)),
      (∀ p ∈ mid, plainRecord ctx p.2 = true) →
      e.action_kind = kind.END_GROUP → e.is_condition = false →
      e.execution_type = execution_type.NONE →
      from_iter_fuel ctx (mid ++ (j, e) :: rest).length true false (mid ++ (j, e) :: rest) =
        some (Except.ok (mid.filterMap (fun p => recordNode ctx p.1 p.2), rest)) := by
  intro mid
  induction mid with
  | nil =>
    intro j e rest _ hk hc hx
    simp only [List.nil_append, List.length_cons, from_iter_fuel, hc, Bool.false_eq_true,
      if_false, loop_step, processRecord_none ctx j e none hx, hk]
    simp
  | cons p mid ihm =>
    intro j e rest hplain hk hc hx
    obtain ⟨i, a⟩ := p
    have hpa : plainRecord ctx a = true := hplain (i, a) (by simp)
    obtain ⟨hcond, -, hke, -, -⟩ := plainRecord_spec ctx a hpa
    obtain ⟨nd, hrn, hpr, -, -⟩ := recordNode_of_plain ctx a i hpa
    simp only [List.cons_append, List.length_cons, from_iter_fuel, hcond, Bool.false_eq_true,
      if_false, loop_step, hpr, List.append_eq]
    rw [ihm j e rest (fun q hq => hplain q (List.mem_cons_of_mem _ hq)) hk hc hx]
    simp [hke, List.filterMap_cons, hrn]

/-- At top level (no grouping flags), a prefix of plain records prepends one
node per record to whatever the parse of the remaining records produces,
and passes errors (and the final remainder) through unchanged. -/
theorem plain_prefix_loop (ctx : BuildCtx phi nu iota) :
    ∀ (pre tail : List (Nat × CodeAction)),
      (∀ p ∈ pre, plainRecord ctx p.2 = true) →
      from_iter_fuel ctx (pre ++ tail).length false false (pre ++ tail) =
        (from_iter_fuel ctx tail.length false false tail).map (fun ex => ex.map (fun pr =>
          (pre.filterMap (fun p => recordNode ctx p.1 p.2) ++ pr.1, pr.2))) := by
  intro pre
  induction pre with
  | nil =>
    intro tail _
    simp only [List.nil_append, List.filterMap_nil]
    cases hv : from_iter_fuel ctx tail.length false false tail with
    | none => rfl
    | some v => rcases v with e | ⟨o, r⟩ <;> simp [Except.map]
  | cons p pre ihp =>
    intro tail hplain
    obtain ⟨i, a⟩ := p
    have hpa : plainRecord ctx a = true := hplain (i, a) (by simp)
    obtain ⟨hcond, -, -, -, -⟩ := plainRecord_spec ctx a hpa
    obtain ⟨nd, hrn, hpr, -, -⟩ := recordNode_of_plain ctx a i hpa
    simp only [List.cons_append, List.length_cons, from_iter_fuel, hcond, Bool.false_eq_true,
      if_false, loop_step, hpr, List.append_eq]
    rw [ihp tail (fun q hq => hplain q (List.mem_cons_of_mem _ hq))]
    cases hv : from_iter_fuel ctx tail.length false false tail with
    | none => rfl
    | some v =>
      rcases v with e | ⟨o, r⟩
      · rfl
      · simp [Except.map, List.filterMap_cons, hrn]

/-- Inversion of a successful `from_list`: the underlying fuelled parse of
the enumerated records succeeded with the tree's nodes as output. -/
theorem from_list_ok (ctx : BuildCtx phi nu iota) (l : List CodeAction) (t : Tree phi nu iota)
    (h : from_list ctx l = some (Except.ok t)) :
    ∃ rem, from_iter_fuel ctx l.enum.length false false l.enum =
      some (Except.ok (t.actions, rem)) := by
  unfold from_list from_iter at h
  rw [stop_immediately_false] at h
  cases hv : from_iter_fuel ctx l.enum.length false false l.enum with
  | none => rw [hv] at h; simp at h
  | some v =>
    rw [hv] at h
    rcases v with e | ⟨o, r⟩
    · simp [Except.map] at h
    · simp only [Option.map_some', Option.some.injEq] at h
      have ht : Tree.mk o = t := Except.ok.inj h
      exact ⟨r, by rw [← ht]⟩

/-- C7: a record with execution type NONE contributes zero nodes: every
node anywhere in a successfully built forest originates from a record of
the input whose execution type is not NONE (nodes carry their source index,
and the index determines the record). -/
theorem c7_none_contributes_nothing (ctx : BuildCtx phi nu iota) (l : List CodeAction)
    (t : Tree phi nu iota) (h : from_list ctx l = some (Except.ok t)) :
    ∀ node ∈ flattenForest t.actions, ∃ a, l[node.index]? = some a ∧
      a.execution_type ≠ execution_type.NONE := by
  obtain ⟨rem, hv⟩ := from_list_ok ctx l t h
  intro node hnode
  obtain ⟨a, hmem, hexec, -⟩ :=
    from_iter_fuel_members ctx l.enum.length false false l.enum t.actions rem hv node hnode
  exact ⟨a, List.mk_mem_enum_iff_getElem?.mp hmem, hexec⟩

/-- C8: a node of a successfully built forest carries branches exactly when
the source record it was built from had its condition flag set. -/
theorem c8_branches_iff_condition (ctx : BuildCtx phi nu iota) (l : List CodeAction)
    (t : Tree phi nu iota) (h : from_list ctx l = some (Except.ok t)) :
    ∀ node ∈ flattenForest t.actions, ∃ a, l[node.index]? = some a ∧
      node.if_else.isSome = a.is_condition := by
  obtain ⟨rem, hv⟩ := from_list_ok ctx l t h
  intro node hnode
  obtain ⟨a, hmem, -, hsome⟩ :=
    from_iter_fuel_members ctx l.enum.length false false l.enum t.actions rem hv node hnode
  exact ⟨a, List.mk_mem_enum_iff_getElem?.mp hmem, hsome⟩

/-- C10: the build always terminates with a result when given fuel equal to
the input length (which is what `from_list` uses), and any larger fuel
computes the same value: the loop and the recursion are bounded by the
number of input records. -/
theorem c10_terminates (ctx : BuildCtx phi nu iota) (l : List CodeAction) :
    (from_list ctx l).isSome = true ∧
      ∀ fuel, l.length ≤ fuel →
        from_iter_fuel ctx fuel false (stop_immediately false l.enum) l.enum =
          from_iter ctx l.enum false := by
  constructor
  · unfold from_list from_iter
    have := from_iter_fuel_isSome ctx l.enum.length false
      (stop_immediately false l.enum) l.enum (le_refl _)
    cases hv : from_iter_fuel ctx l.enum.length false (stop_immediately false l.enum) l.enum with
    | none => rw [hv] at this; simp at this
    | some v => simp [hv]
  · intro fuel hfuel
    unfold from_iter
    exact from_iter_fuel_mono ctx l.enum.length fuel false (stop_immediately false l.enum)
      l.enum (by rw [List.enum_length]) (by rw [List.enum_length]; exact hfuel)

/-- One unfolding of the loop at a non-condition record. -/
theorem from_iter_fuel_cons_plain (ctx : BuildCtx phi nu iota) (fuel : Nat) (sg si : Bool)
    (i : Nat) (a : CodeAction) (rest : List (Nat × CodeAction))
    (hc : a.is_condition = false) :
    from_iter_fuel ctx (fuel + 1) sg si ((i, a) :: rest) =
      loop_step ctx sg si i a none rest (from_iter_fuel ctx fuel sg si rest) := by
  simp only [from_iter_fuel, hc, Bool.false_eq_true, if_false]

/-- One unfolding of the loop at a condition record whose then-subtree
parse succeeded and whose next unconsumed record is not an `Else`. -/
theorem from_iter_fuel_cons_cond (ctx : BuildCtx phi nu iota) (fuel : Nat) (sg si : Bool)
    (i : Nat) (a : CodeAction) (rest : List (Nat × CodeAction))
    (hc : a.is_condition = true)
    (if_body : List (Action phi nu iota)) (r1 : List (Nat × CodeAction))
    (hsub : from_iter_fuel ctx fuel true (stop_immediately true rest) rest =
      some (Except.ok (if_body, r1)))
    (hpeek : is_else_peek r1 = false) :
    from_iter_fuel ctx (fuel + 1) sg si ((i, a) :: rest) =
      loop_step ctx sg si i a (some (if_body, [])) r1 (from_iter_fuel ctx fuel sg si r1) := by
  simp only [from_iter_fuel, hc, if_true, hsub, hpeek, Bool.false_eq_true, if_false]

/-- C2 counterexample: a single-group parse starting at a `BeginGroup` does
NOT consume up to the `EndGroup` matching it at the same nesting depth when
a bare nested group intervenes.  On the records
`BeginGroup, BeginGroup, EndGroup, EndGroup` (all execution type NONE) the
`EndGroup` matching the opening record at depth is the one at index 3, but
the parse stops at the first `EndGroup` record it processes (index 2) and
leaves the record at index 3 unconsumed, so the remainder is not empty. -/
theorem c2_first_end_group_counterexample :
    from_iter testCtx [(0, beginRec), (1, beginRec), (2, endRec), (3, endRec)] true =
      some (Except.ok ([], [(3, endRec)])) ∧
    ([(3, endRec)] : List (Nat × CodeAction)) ≠ [] :=
  ⟨rfl, by simp⟩

/-- C2 amended: a single-group parse whose first unconsumed record is a
`BeginGroup` consumes records up to and including the first `EndGroup`
record processed at its own level; when the enclosed records are well-formed
non-structural records (so no bare nested group intervenes) that `EndGroup`
is the one matching the `BeginGroup` at the same depth, the remainder is
exactly the records after it, and the returned sequence is one node per
enclosed record (the two markers, having execution type NONE, contribute
none). -/
theorem c2_matching_end_group (ctx : BuildCtx phi nu iota) (i j : Nat) (b e : CodeAction)
    (mid rest : List (Nat × CodeAction))
    (hbk : b.action_kind = kind.BEGIN_GROUP) (hbc : b.is_condition = false)
    (hbx : b.execution_type = execution_type.NONE)
    (hek : e.action_kind = kind.END_GROUP) (hec : e.is_condition = false)
    (hex : e.execution_type = execution_type.NONE)
    (hmid : ∀ p ∈ mid, plainRecord ctx p.2 = true) :
    from_iter ctx ((i, b) :: (mid ++ (j, e) :: rest)) true =
      some (Except.ok (mid.filterMap (fun p => recordNode ctx p.1 p.2), rest)) ∧
    (mid.filterMap (fun p => recordNode ctx p.1 p.2)).length = mid.length := by
  refine ⟨?_, plain_filterMap_length ctx mid hmid⟩
  unfold from_iter
  have hsi : stop_immediately true ((i, b) :: (mid ++ (j, e) :: rest)) = false := by
    simp [stop_immediately, hbk]
  rw [hsi]
  simp only [List.length_cons, from_iter_fuel, hbc, Bool.false_eq_true, if_false,
    loop_step, processRecord_none ctx i b none hbx, List.append_eq]
  rw [group_loop ctx mid j e rest hmid hek hec hex]
  have hbne : (b.action_kind = kind.END_GROUP) = False := by
    simp [hbk, kind.BEGIN_GROUP, kind.END_GROUP]
  simp [hbne]

/-- The second component of an enumerated entry is a member of the
underlying list. -/
theorem mem_enumFrom_snd {p : Nat × CodeAction} {n : Nat} {l : List CodeAction}
    (h : p ∈ l.enumFrom n) : p.2 ∈ l := by
  have hmap := List.enumFrom_map_snd n l
  rw [← hmap]
  exact List.mem_map_of_mem Prod.snd h

/-- C5: a FUNCTION-execution record whose operation name is absent from the
builtin table, reached after a prefix of well-formed records, aborts the
whole build with the unknown-function error naming the operation and the
record's index; the overall result is that error, not a partial tree. -/
theorem c5_unknown_function_fatal (ctx : BuildCtx phi nu iota)
    (pres suffix : List CodeAction) (bad : CodeAction)
    (hplain : ∀ a ∈ pres, plainRecord ctx a = true)
    (hbc : bad.is_condition = false)
    (hbx : bad.execution_type = execution_type.FUNCTION)
    (hfind : ctx.functions.find? (fun p => p.1 == bad.fn_name) = none) :
    from_list ctx (pres ++ bad :: suffix) =
      some (Except.error
        ("Unknown function: " ++ bad.fn_name ++ " in action " ++ toString pres.length)) := by
  have henum : (pres ++ bad :: suffix).enum =
      pres.enum ++ ((pres.length, bad) :: suffix.enumFrom (pres.length + 1)) := by
    unfold List.enum
    rw [List.enumFrom_append]
    simp [List.enumFrom_cons]
  have hplainE : ∀ p ∈ pres.enum, plainRecord ctx p.2 = true :=
    fun p hp => hplain p.2 (mem_enumFrom_snd hp)
  have hpr : processRecord ctx pres.length bad
      (none : Option (List (Action phi nu iota) × List (Action phi nu iota))) =
      Except.error
        ("Unknown function: " ++ bad.fn_name ++ " in action " ++ toString pres.length) := by
    unfold processRecord compileBody
    simp [hbx, hfind, execution_type.NONE, execution_type.FUNCTION]
  have htail : from_iter_fuel ctx ((pres.length, bad) :: suffix.enumFrom (pres.length + 1)).length
      false false ((pres.length, bad) :: suffix.enumFrom (pres.length + 1)) =
      some (Except.error
        ("Unknown function: " ++ bad.fn_name ++ " in action " ++ toString pres.length)) := by
    simp only [List.length_cons, from_iter_fuel, hbc, Bool.false_eq_true, if_false,
      loop_step, hpr]
  unfold from_list from_iter
  rw [stop_immediately_false, henum, plain_prefix_loop ctx pres.enum _ hplainE, htail]
  simp [Except.map]

/-- C6: building a flat sequence consisting of a `BeginGroup` marker, N
well-formed records and the matching `EndGroup` marker, then flattening the
resulting nodes back to source order, reproduces exactly the N inner
records, unchanged and in their original order (each node's source index
looks up its own record in the input). -/
theorem c6_group_roundtrip (ctx : BuildCtx phi nu iota) (bg en : CodeAction)
    (mid : List CodeAction)
    (hbk : bg.action_kind = kind.BEGIN_GROUP) (hbc : bg.is_condition = false)
    (hbx : bg.execution_type = execution_type.NONE)
    (hek : en.action_kind = kind.END_GROUP) (hec : en.is_condition = false)
    (hex : en.execution_type = execution_type.NONE)
    (hmid : ∀ a ∈ mid, plainRecord ctx a = true) :
    ∃ ns, from_list ctx (bg :: (mid ++ [en])) = some (Except.ok (Tree.mk ns)) ∧
      flattenForest ns = ns ∧
      ns.map (fun nd => (bg :: (mid ++ [en]))[nd.index]?) = mid.map some := by
  have henum : (bg :: (mid ++ [en])).enum =
      (0, bg) :: (mid.enumFrom 1 ++ [(1 + mid.length, en)]) := by
    unfold List.enum
    rw [List.enumFrom_cons, List.enumFrom_append]
    rfl
  have hplainE : ∀ p ∈ mid.enumFrom 1, plainRecord ctx p.2 = true :=
    fun p hp => hmid p.2 (mem_enumFrom_snd hp)
  have htail : from_iter_fuel ctx ([(1 + mid.length, en)] : List (Nat × CodeAction)).length
      false false [(1 + mid.length, en)] = some (Except.ok ([], [])) := by
    simp only [List.length_cons, List.length_nil, from_iter_fuel, hec, Bool.false_eq_true,
      if_false, loop_step, processRecord_none ctx (1 + mid.length) en none hex]
    simp
  refine ⟨(mid.enumFrom 1).filterMap (fun p => recordNode ctx p.1 p.2), ?_, ?_, ?_⟩
  · unfold from_list from_iter
    rw [stop_immediately_false, henum]
    simp only [List.length_cons, from_iter_fuel, hbc, Bool.false_eq_true, if_false,
      loop_step, processRecord_none ctx 0 bg none hbx, List.append_eq]
    rw [plain_prefix_loop ctx (mid.enumFrom 1) [(1 + mid.length, en)] hplainE, htail]
    simp [Except.map]
  · exact flatten_no_branches _ (plain_nodes_if_else ctx _ hplainE)
  · apply plain_nodes_lookup ctx mid 1 _ hmid
    intro jj hjj
    rw [show (1 : Nat) + jj = jj + 1 by omega]
    rw [List.getElem?_cons_succ, List.getElem?_append_left hjj]

/-- C3 counterexample: a condition record immediately followed by exactly
one non-`BeginGroup` record does NOT always get a one-node then-branch: if
the follower has execution type NONE it is consumed but dropped, and the
then-branch is empty (zero nodes, not one). -/
theorem c3_none_follower_counterexample :
    from_list testCtx [condRec, baseRec] =
      some (Except.ok (Tree.mk [Action.mk 0 none [1] false false (Body.Function 7)
        (some ([], []))])) ∧ (0 : Nat) ≠ 1 :=
  ⟨rfl, by simp⟩

/-- C3 amended: a condition record that itself produces a node, immediately
followed by exactly one non-`BeginGroup`, non-condition record that also
produces a node, builds to a single condition node whose then-branch has
exactly one node and whose otherwise-branch is empty (no `Else` record
follows). -/
theorem c3_single_then (ctx : BuildCtx phi nu iota) (c f : CodeAction)
    (hcc : c.is_condition = true) (hce : emitsNode ctx c = true)
    (hfk : f.action_kind ≠ kind.BEGIN_GROUP) (hfc : f.is_condition = false)
    (hfe : emitsNode ctx f = true) :
    ∃ cn fn, from_list ctx [c, f] = some (Except.ok (Tree.mk [cn])) ∧
      cn.if_else = some ([fn], []) := by
  obtain ⟨fab, hfab⟩ := emits_ok ctx f hfe
  obtain ⟨cab, hcab⟩ := emits_ok ctx c hce
  have hprf : processRecord ctx 1 f
      (none : Option (List (Action phi nu iota) × List (Action phi nu iota))) =
      Except.ok (some (Action.mk 1
        (if f.applies_to_something then some f.applies_to else none) fab.1 f.is_relative
        f.invert_condition fab.2 none)) := by
    unfold processRecord
    rw [hfab 1]
  set fn := Action.mk 1 (if f.applies_to_something then some f.applies_to else none) fab.1
    f.is_relative f.invert_condition fab.2
    (none : Option (List (Action phi nu iota) × List (Action phi nu iota))) with hfn
  have hprc : processRecord ctx 0 c (some ([fn], [])) = Except.ok (some (Action.mk 0
      (if c.applies_to_something then some c.applies_to else none) cab.1 c.is_relative
      c.invert_condition cab.2 (some ([fn], [])))) := by
    unfold processRecord
    rw [hcab 0]
  set cn := Action.mk 0 (if c.applies_to_something then some c.applies_to else none) cab.1
    c.is_relative c.invert_condition cab.2 (some ([fn], [])) with hcn
  refine ⟨cn, fn, ?_, rfl⟩
  have hsi : stop_immediately true [(1, f)] = true := by
    simp [stop_immediately, hfk]
  have hinner1 : from_iter_fuel ctx 1 true true [(1, f)] =
      loop_step ctx true true 1 f none [] (from_iter_fuel ctx 0 true true []) :=
    from_iter_fuel_cons_plain ctx 0 true true 1 f [] hfc
  have hinner : from_iter_fuel ctx 1 true (stop_immediately true [(1, f)]) [(1, f)] =
      some (Except.ok ([fn], [])) := by
    rw [hsi, hinner1]
    simp only [loop_step, hprf]
    simp
  have hstep : from_iter_fuel ctx 2 false false [(0, c), (1, f)] =
      loop_step ctx false false 0 c (some ([fn], [])) [] (from_iter_fuel ctx 1 false false []) :=
    from_iter_fuel_cons_cond ctx 1 false false 0 c [(1, f)] hcc [fn] [] hinner rfl
  unfold from_list from_iter
  rw [stop_immediately_false]
  have he : ([c, f] : List CodeAction).enum = [(0, c), (1, f)] := rfl
  rw [he, show ([(0, c), (1, f)] : List (Nat × CodeAction)).length = 2 from rfl, hstep]
  simp only [loop_step, hprc]
  simp [Except.map, from_iter_fuel]

/-- C4: for an inline-code record (kind CODE, execution type neither NONE
nor FUNCTION), only the first raw parameter string determines the result:
replacing `fn_code` (even by a string that fails to compile) and the
parameters beyond index 0 changes nothing, and the produced node's argument
list is empty. -/
theorem c4_inline_code_reads_param0_only (ctx : BuildCtx phi nu iota) (a : CodeAction)
    (s2 : String) (ps : List String) (i : Nat)
    (fe : Option (List (Action phi nu iota) × List (Action phi nu iota)))
    (hk : a.action_kind = kind.CODE)
    (h0 : a.execution_type ≠ execution_type.NONE)
    (h1 : a.execution_type ≠ execution_type.FUNCTION)
    (hh : ps.head? = a.param_strings.head?) :
    processRecord ctx i { a with fn_code := s2, param_strings := ps } fe =
      processRecord ctx i a fe ∧
    ∀ n, processRecord ctx i a fe = Except.ok (some n) → n.args = [] := by
  have hcb : compileBody ctx i { a with fn_code := s2, param_strings := ps } =
      compileBody ctx i a := by
    unfold compileBody
    simp only [h0, h1, hk, if_false, if_true]
    rw [hh]
  have hargs : ∀ ab : List nu × Body phi iota,
      compileBody ctx i a = Except.ok (some ab) → ab.1 = [] := by
    intro ab hab
    unfold compileBody at hab
    simp only [h0, h1, hk, if_false, if_true] at hab
    split at hab
    · split at hab
      · simp only [Except.ok.injEq, Option.some.injEq] at hab
        rw [← hab]
      · simp at hab
    · simp only [Except.ok.injEq, Option.some.injEq] at hab
      rw [← hab]
  constructor
  · unfold processRecord
    rw [hcb]
  · intro n hn
    unfold processRecord at hn
    split at hn
    · simp at hn
    · simp at hn
    · rename_i args body heq
      simp only [Except.ok.injEq, Option.some.injEq] at hn
      subst hn
      exact hargs (args, body) heq

/-- C9 counterexample: the builder does not consume the else-subtree of a
dropped (execution type NONE) condition: on
`condition(NONE), move, Else, move` the then-subtree (the first move) is
consumed and discarded, but the record after the `Else` marker is not
consumed as an else-subtree — it surfaces as a top-level sibling node
(index 3), where the claim's reading would leave the output forest empty. -/
theorem c9_else_subtree_not_consumed :
    from_list testCtx [condNoneRec, moveRec, elseRec, moveRec] =
      some (Except.ok (Tree.mk [Action.mk 3 none [1] false false (Body.Function 7) none])) ∧
    ([Action.mk 3 none [1] false false (Body.Function 7) none] :
      List (Action Nat Nat Nat)) ≠ [] :=
  ⟨rfl, by simp⟩

/-- C9 amended: a condition record with execution type NONE still consumes
and compiles its then-subtree, so a dispatch failure (compile error or
unknown operation) in the single record forming that subtree aborts the
whole build with that error, even though the condition record itself emits
no node. -/
theorem c9_none_condition_still_compiles (ctx : BuildCtx phi nu iota) (c f : CodeAction)
    (rest : List CodeAction) (msg : String)
    (hcc : c.is_condition = true) (hcx : c.execution_type = execution_type.NONE)
    (hfk : f.action_kind ≠ kind.BEGIN_GROUP)
    (hfc : f.is_condition = false)
    (herr : compileBody ctx 1 f = Except.error msg) :
    from_list ctx (c :: f :: rest) = some (Except.error msg) := by
  have henum : (c :: f :: rest).enum = (0, c) :: (1, f) :: rest.enumFrom 2 := rfl
  have hsi : stop_immediately true ((1, f) :: rest.enumFrom 2) = true := by
    simp [stop_immediately, hfk]
  have hpf : processRecord ctx 1 f
      (none : Option (List (Action phi nu iota) × List (Action phi nu iota))) =
      Except.error msg := by
    unfold processRecord
    rw [herr]
  unfold from_list from_iter
  rw [stop_immediately_false, henum]
  simp only [List.length_cons, from_iter_fuel, hcc, if_true, hsi, hfc, Bool.false_eq_true,
    if_false, loop_step, hpf]
  simp [Except.map]

/-- C1 (evaluation at the failing input): on a condition followed by a
braced then-group (K = 1) and an `Else` record followed by a braced group
(M = 1), the build succeeds but the condition node's otherwise-branch is
EMPTY, and the else-group's record surfaces as a top-level sibling (index
6): the recursive else parse starts at the `Else` record itself, which is
not a `BeginGroup`, so `stop_immediately` is true and the parse consumes
only the `Else` marker. -/
theorem c1_else_group_dropped :
    from_list testCtx [condRec, beginRec, moveRec, endRec, elseRec, beginRec, moveRec, endRec] =
      some (Except.ok (Tree.mk
        [Action.mk 0 none [1] false false (Body.Function 7)
            (some ([Action.mk 2 none [1] false false (Body.Function 7) none], [])),
         Action.mk 6 none [1] false false (Body.Function 7) none])) := rfl

/-- Witness for C2's amended theorem at a concrete input: one plain record
between the markers, one record after the group. -/
theorem c2_matching_end_group_witness :
    from_iter testCtx ((0, beginRec) :: ([(1, moveRec)] ++ (2, endRec) :: [(3, moveRec)])) true =
      some (Except.ok (([(1, moveRec)] : List (Nat × CodeAction)).filterMap
        (fun p => recordNode testCtx p.1 p.2), [(3, moveRec)])) ∧
    (([(1, moveRec)] : List (Nat × CodeAction)).filterMap
      (fun p => recordNode testCtx p.1 p.2)).length =
      ([(1, moveRec)] : List (Nat × CodeAction)).length :=
  c2_matching_end_group testCtx 0 2 beginRec endRec [(1, moveRec)] [(3, moveRec)]
    rfl rfl rfl rfl rfl rfl (by decide)

/-- Witness for C3's amended theorem at a concrete input. -/
theorem c3_single_then_witness :
    ∃ cn fn, from_list testCtx [condRec, moveRec] = some (Except.ok (Tree.mk [cn])) ∧
      cn.if_else = some ([fn], []) :=
  c3_single_then testCtx condRec moveRec rfl (by decide) (by decide) rfl (by decide)

/-- Witness for C4 at a concrete input: poisoning `fn_code` with a string
the statement compiler rejects, and appending a parameter the expression
compiler rejects, leaves the result unchanged. -/
theorem c4_witness :
    (processRecord testCtx 0 { inlineRec with fn_code := "BADCODE", param_strings := ["x", "BAD"] }
        (none : Option (List (Action Nat Nat Nat) × List (Action Nat Nat Nat))) =
      processRecord testCtx 0 inlineRec none) ∧
    ∀ n, processRecord testCtx 0 inlineRec none = Except.ok (some n) → n.args = [] :=
  c4_inline_code_reads_param0_only testCtx inlineRec "BADCODE" ["x", "BAD"] 0 none
    rfl (by decide) (by decide) rfl

/-- Witness for C5 at a concrete input: the unknown operation sits at index
1, after one well-formed record. -/
theorem c5_witness :
    from_list testCtx ([moveRec] ++ badFnRec :: [baseRec]) =
      some (Except.error ("Unknown function: " ++ badFnRec.fn_name ++ " in action " ++
        toString ([moveRec] : List CodeAction).length)) :=
  c5_unknown_function_fatal testCtx [moveRec] [baseRec] badFnRec (by decide) rfl rfl rfl

/-- Witness for C6 at a concrete input: two records inside the group. -/
theorem c6_witness :
    ∃ ns, from_list testCtx (beginRec :: ([moveRec, moveRec] ++ [endRec])) =
        some (Except.ok (Tree.mk ns)) ∧
      flattenForest ns = ns ∧
      ns.map (fun nd => (beginRec :: ([moveRec, moveRec] ++ [endRec]))[nd.index]?) =
        ([moveRec, moveRec] : List CodeAction).map some :=
  c6_group_roundtrip testCtx beginRec endRec [moveRec, moveRec] rfl rfl rfl rfl rfl rfl
    (by decide)

/-- Witness for C7: `sampleList` contains a NONE record (index 1) and
builds successfully; no node of the result points at it. -/
theorem c7_witness :
    from_list testCtx sampleList = some (Except.ok sampleTree) ∧
    ∀ node ∈ flattenForest sampleTree.actions, ∃ a, sampleList[node.index]? = some a ∧
      a.execution_type ≠ execution_type.NONE :=
  ⟨rfl, c7_none_contributes_nothing testCtx sampleList sampleTree rfl⟩

/-- Witness for C8: in the forest built from `sampleList`, branches appear
exactly on the node built from the condition record. -/
theorem c8_witness :
    from_list testCtx sampleList = some (Except.ok sampleTree) ∧
    ∀ node ∈ flattenForest sampleTree.actions, ∃ a, sampleList[node.index]? = some a ∧
      node.if_else.isSome = a.is_condition :=
  ⟨rfl, c8_branches_iff_condition testCtx sampleList sampleTree rfl⟩

/-- Witness for C9's amended theorem at a concrete input: a disabled
condition followed by a then-record naming an unknown operation. -/
theorem c9_witness :
    from_list testCtx (condNoneRec :: badFnRec :: [moveRec]) =
      some (Except.error "Unknown function: nope in action 1") :=
  c9_none_condition_still_compiles testCtx condNoneRec badFnRec [moveRec]
    "Unknown function: nope in action 1" rfl rfl (by decide) rfl rfl

/-- Witness for C10 at a concrete input and a larger fuel. -/
theorem c10_witness :
    (from_list testCtx sampleList).isSome = true ∧
      from_iter_fuel testCtx 9 false (stop_immediately false sampleList.enum) sampleList.enum =
        from_iter testCtx sampleList.enum false :=
  ⟨(c10_terminates testCtx sampleList).1, (c10_terminates testCtx sampleList).2 9 (by decide)⟩

end GmAction
